import Mathlib

/-!
Verification of the sweep post-processing pipeline of `amp_benchkit/sweeps.py`:
the amplitude sanitizer, the monotonic envelope builder, the reference index
selector, the spike filter, the sweep validation logic, and the post-sweep
cleanup control flow.  Python floats are modelled by the type `PF` below:
a finite rational plus the IEEE special values, with Python comparison
semantics (every comparison against `nan` is false).
-/

/-- Model of a Python `float`: a finite value (as an exact rational) or one of
the IEEE special values `inf`, `-inf`, `nan`. -/
inductive PF where
  | fin : ℚ → PF
  | pinf : PF
  | ninf : PF
  | nan : PF
deriving DecidableEq

/-- `math.isfinite`. -/
def PF.isfinite : PF → Bool
  | .fin _ => true
  | _ => false

/-- The rational carried by a finite float (junk `0` otherwise; always used
under an `isfinite` guard, mirroring the Python code). -/
def PF.toQ : PF → ℚ
  | .fin q => q
  | _ => 0

/-- Python `<` on floats: `nan` compares false against everything. -/
def PF.lt : PF → PF → Bool
  | .fin p, .fin q => decide (p < q)
  | .fin _, .pinf => true
  | .ninf, .fin _ => true
  | .ninf, .pinf => true
  | _, _ => false

/-- Python `<=` on floats: `nan` compares false against everything. -/
def PF.le : PF → PF → Bool
  | .fin p, .fin q => decide (p ≤ q)
  | .fin _, .pinf => true
  | .ninf, .fin _ => true
  | .ninf, .ninf => true
  | .ninf, .pinf => true
  | .pinf, .pinf => true
  | _, _ => false

/-- Python `>` on floats. -/
def PF.gt (a b : PF) : Bool := PF.lt b a

/-- Python `abs` on floats. -/
def PF.abs : PF → PF
  | .fin q => .fin |q|
  | .pinf => .pinf
  | .ninf => .pinf
  | .nan => .nan

/-- Float subtraction (IEEE rules on the special values). -/
def PF.sub : PF → PF → PF
  | .fin p, .fin q => .fin (p - q)
  | .fin _, .pinf => .ninf
  | .fin _, .ninf => .pinf
  | .pinf, .fin _ => .pinf
  | .ninf, .fin _ => .ninf
  | .pinf, .ninf => .pinf
  | .ninf, .pinf => .ninf
  | _, _ => .nan

/-- Float multiplication (IEEE rules on the special values). -/
def PF.mul : PF → PF → PF
  | .fin p, .fin q => .fin (p * q)
  | .fin p, .pinf => if 0 < p then .pinf else if p < 0 then .ninf else .nan
  | .fin p, .ninf => if 0 < p then .ninf else if p < 0 then .pinf else .nan
  | .pinf, .fin q => if 0 < q then .pinf else if q < 0 then .ninf else .nan
  | .ninf, .fin q => if 0 < q then .ninf else if q < 0 then .pinf else .nan
  | .pinf, .pinf => .pinf
  | .pinf, .ninf => .ninf
  | .ninf, .pinf => .ninf
  | .ninf, .ninf => .pinf
  | _, _ => .nan

/-- Python `max(a, b)`: keeps `a` unless `b > a`. -/
def pyMax (a b : PF) : PF := if PF.gt b a then b else a

/-! The Amplitude Sanitizer, `_clean_amplitudes` in `sweeps.py`.  The loop
state `last_finite` starts at `1e-12`; a sample that is finite and `> 0`
contributes `abs(sample)` and becomes the new `last_finite`, any other sample
is replaced by the current `last_finite`. -/

/-- The sanitizer loop of `_clean_amplitudes`, with the running `last_finite`
value made explicit. -/
def cleanAmplitudesGo (lastFinite : ℚ) : List PF → List PF
  | [] => []
  | amp :: rest =>
    if amp.isfinite && PF.gt amp (.fin 0) then
      PF.fin |amp.toQ| :: cleanAmplitudesGo |amp.toQ| rest
    else
      PF.fin lastFinite :: cleanAmplitudesGo lastFinite rest

/-- `_clean_amplitudes(amps)`: amplitudes forced positive and finite, invalid
entries replaced by the last valid magnitude (initially `1e-12`). -/
def cleanAmplitudes (amps : List PF) : List PF :=
  cleanAmplitudesGo (1 / 10 ^ 12) amps

/-! The Monotonic Envelope Builder, `_monotonic_envelope` in `sweeps.py`.
Each side runs the same loop: `v = val if finite else current`, then
`v = current if finite(current) else 0.0` when `v` is still non-finite, and
`current = v` whenever `current` is non-finite or `v > current`; the loop
appends `current` after every sample.  The low side processes
`vals[: idx + 1]` left to right, the high side processes `vals[idx :]`
right to left, and the two are merged as `lo_env[:-1] + hi_env`. -/

/-- One iteration of the envelope running-maximum loop: the new `current`. -/
def envStep (current val : PF) : PF :=
  let v0 := if val.isfinite then val else current
  let v := if v0.isfinite then v0 else if current.isfinite then current else .fin 0
  if !current.isfinite || PF.gt v current then v else current

/-- The envelope loop over a sample list, appending `current` per sample. -/
def envPassGo (current : PF) : List PF → List PF
  | [] => []
  | val :: rest => envStep current val :: envPassGo (envStep current val) rest

/-- One directional pass of `_monotonic_envelope`: `current` starts at
`float("-inf")`. -/
def envPass (l : List PF) : List PF := envPassGo .ninf l

/-- The clamped reference index `max(0, min(int(ref_index), n - 1))`. -/
def envRefIdx (values : List PF) (refIndex : ℤ) : ℕ :=
  (max 0 (min refIndex ((values.length : ℤ) - 1))).toNat

/-- `_monotonic_envelope(values, ref_index)`: low side `vals[: idx + 1]`
swept left to right, high side `vals[idx :]` swept right to left (via a
reversal), merged as `lo_env[:-1] + hi_env`. -/
def monotonicEnvelope (values : List PF) (refIndex : ℤ) : List PF :=
  if values.length = 0 then []
  else
    let idx := envRefIdx values refIndex
    let lo := values.take (idx + 1)
    let hi := values.drop idx
    let loEnv := envPass lo
    let hiEnv := (envPass hi.reverse).reverse
    loEnv.dropLast ++ hiEnv

/-! The Reference Index Selector, `_reference_index` in `sweeps.py`. -/

/-- Python `str.lower()` (per-character lowercasing). -/
def pyLower (s : String) : String := String.mk (s.data.map Char.toLower)

/-- Python `str.startswith(pre)`. -/
def pyStartsWith (s pre : String) : Bool := List.isPrefixOf pre.data s.data

/-- The eligibility test of `_reference_index`: finite amplitude `> 0`. -/
def eligAmp (a : PF) : Bool := a.isfinite && PF.gt a (.fin 0)

/-- `finite_indices`: the positions of the eligible amplitudes, in scan
order (`enumerate(amps)` filtered on `isfinite(amp) and amp > 0`). -/
def eligibleIndices (amps : List PF) : List ℕ :=
  (List.range amps.length).filter (fun i => eligAmp (amps.getD i .nan))

/-- The scan loop of Python `max(xs, key=key)`: the best element so far is
replaced only on a strictly greater key. -/
def pyMaxKeyGo (key : ℕ → PF) (res : ℕ) (L : List ℕ) : ℕ :=
  L.foldl (fun acc i => if PF.gt (key i) (key acc) then i else acc) res

/-- Python `max(xs, key=key)` on a nonempty list: scans left to right and
replaces the best element only on a strictly greater key. -/
def pyMaxKey (key : ℕ → PF) : List ℕ → ℕ
  | [] => 0
  | x :: xs => pyMaxKeyGo key x xs

/-- Python `min(xs, key=key)` on a nonempty list: scans left to right and
replaces the best element only on a strictly smaller key. -/
def pyMinKey (key : ℕ → PF) : List ℕ → ℕ
  | [] => 0
  | x :: xs => xs.foldl (fun res i => if PF.lt (key i) (key res) then i else res) x

/-- `_reference_index(freqs, amps, ref_mode, ref_hz)`: `0` for an empty
frequency list or no eligible index; otherwise the nearest-frequency eligible
index when the lowercased mode starts with `"freq"`, else the first eligible
index of greatest amplitude. -/
def referenceIndex (freqs amps : List PF) (refMode : String) (refHz : PF) : ℕ :=
  if freqs.length = 0 then 0
  else if (eligibleIndices amps).isEmpty then 0
  else if pyStartsWith (pyLower refMode) "freq" then
    pyMinKey (fun i => PF.abs (PF.sub (freqs.getD i .nan) refHz))
      (eligibleIndices amps)
  else
    pyMaxKey (fun i => amps.getD i .nan) (eligibleIndices amps)

/-! The Spike Filter, `_filter_spikes` in `sweeps.py`. -/

/-- One row of a THD sweep: `(freq, vrms, vpp, thd_percent)`. -/
abbrev Row4 := PF × PF × PF × PF

/-- One suppression record: `(freq, original_thd, baseline)`. -/
abbrev Supp := PF × PF × PF

/-- The THD field of a row. -/
def rowThd (r : Row4) : PF := r.2.2.2

/-- The default row expressing out-of-range `getD` lookups (never reached by
the loop, which only indexes positions below the length). -/
def rowDefault : Row4 := (.nan, .nan, .nan, .nan)

/-- Insertion into a sorted rational list (the sort inside
`statistics.median`). -/
def insertQ (x : ℚ) : List ℚ → List ℚ
  | [] => [x]
  | y :: ys => if x ≤ y then x :: y :: ys else y :: insertQ x ys

/-- Sorting a rational list. -/
def sortQ (l : List ℚ) : List ℚ := l.foldr insertQ []

/-- `statistics.median` on a nonempty list of finite floats: the middle
element of the sorted data, or the mean of the two middle elements for even
length. -/
def medianQ (l : List ℚ) : ℚ :=
  let s := sortQ l
  let n := s.length
  if n % 2 = 1 then s.getD (n / 2) 0
  else (s.getD (n / 2 - 1) 0 + s.getD (n / 2) 0) / 2

/-- The finite THD values among the rows with index in
`range(max(0, idx - window), min(total, idx + window + 1))`, excluding `idx`
itself: the neighbor scan of `_filter_spikes`. -/
def neighborThds (rows : List Row4) (idx : ℕ) (window : ℤ) : List ℚ :=
  (List.range rows.length).filterMap (fun (j : ℕ) =>
    if (max 0 ((idx : ℤ) - window) ≤ (j : ℤ) ∧
        (j : ℤ) < min ((rows.length : ℤ)) ((idx : ℤ) + window + 1) ∧ j ≠ idx) ∧
        (rowThd (rows.getD j rowDefault)).isfinite = true
    then some (rowThd (rows.getD j rowDefault)).toQ
    else none)

/-- The body of the `_filter_spikes` loop at index `idx`: appends one filtered
row, and a suppression record when the THD exceeds
`max(min_percent, baseline * factor)`. -/
def spikeStep (rows : List Row4) (window : ℤ) (factor minPercent : PF)
    (acc : List Row4 × List Supp) (idx : ℕ) : List Row4 × List Supp :=
  let r := rows.getD idx rowDefault
  let neighbors := neighborThds rows idx window
  if neighbors.isEmpty || !(rowThd r).isfinite then
    (acc.1 ++ [r], acc.2)
  else
    let baseline := medianQ neighbors
    let threshold := pyMax minPercent (PF.mul (.fin baseline) factor)
    if PF.gt (rowThd r) threshold then
      (acc.1 ++ [(r.1, r.2.1, r.2.2.1, PF.fin baseline)],
        acc.2 ++ [(r.1, rowThd r, PF.fin baseline)])
    else
      (acc.1 ++ [r], acc.2)

/-- `_filter_spikes(rows, window=, factor=, min_percent=)`: returns the
filtered rows and the suppression records, both in sweep order. -/
def filterSpikes (rows : List Row4) (window : ℤ) (factor minPercent : PF) :
    List Row4 × List Supp :=
  (List.range rows.length).foldl (spikeStep rows window factor minPercent) ([], [])

/-- The single output row `_filter_spikes` emits at index `idx` (closed form
of the loop body). -/
def spikeRowAt (rows : List Row4) (window : ℤ) (factor minPercent : PF)
    (idx : ℕ) : Row4 :=
  let r := rows.getD idx rowDefault
  let neighbors := neighborThds rows idx window
  if neighbors.isEmpty || !(rowThd r).isfinite then r
  else
    let baseline := medianQ neighbors
    let threshold := pyMax minPercent (PF.mul (.fin baseline) factor)
    if PF.gt (rowThd r) threshold then (r.1, r.2.1, r.2.2.1, PF.fin baseline)
    else r

/-- The suppression record `_filter_spikes` emits at index `idx`, if any
(closed form of the loop body). -/
def spikeSuppAt (rows : List Row4) (window : ℤ) (factor minPercent : PF)
    (idx : ℕ) : Option Supp :=
  let r := rows.getD idx rowDefault
  let neighbors := neighborThds rows idx window
  if neighbors.isEmpty || !(rowThd r).isfinite then none
  else
    let baseline := medianQ neighbors
    let threshold := pyMax minPercent (PF.mul (.fin baseline) factor)
    if PF.gt (rowThd r) threshold then some (r.1, rowThd r, PF.fin baseline)
    else none

/-! The argument validation at the head of `thd_sweep` and `knee_sweep`.
Every check below precedes the `sweep_audio_kpis` call (the only instrument
I/O); `.error` models `raise ValueError`. -/

/-- The `thd_sweep` argument checks, in source order. -/
def thdSweepValidate (points : ℤ) (ampVpp dwellS : PF)
    (calibrateToVpp : Option PF) (hasCurve : Bool) : Except String Unit :=
  if points < 2 then .error "points must be >= 2"
  else if !ampVpp.isfinite || PF.le ampVpp (.fin 0) then
    .error "amp_vpp must be > 0"
  else if !dwellS.isfinite || PF.lt dwellS (.fin 0) then
    .error "dwell_s must be >= 0"
  else if calibrateToVpp.isSome && !hasCurve then
    .error "calibrate_to_vpp requires calibration_curve"
  else .ok ()

/-- The smoothing-mode normalization `(smoothing or "none").lower()` (an empty
string is falsy in Python). -/
def smoothingMode (smoothing : String) : String :=
  pyLower (if smoothing = "" then "none" else smoothing)

/-- The `knee_sweep` argument checks, in source order: the four `thd_sweep`
checks plus `knee_drop_db`, then the calibration check, then the smoothing
mode check. -/
def kneeSweepValidate (points : ℤ) (ampVpp dwellS kneeDropDb : PF)
    (calibrateToVpp : Option PF) (hasCurve : Bool) (smoothing : String) :
    Except String Unit :=
  if points < 2 then .error "points must be >= 2"
  else if !ampVpp.isfinite || PF.le ampVpp (.fin 0) then
    .error "amp_vpp must be > 0"
  else if !dwellS.isfinite || PF.lt dwellS (.fin 0) then
    .error "dwell_s must be >= 0"
  else if !kneeDropDb.isfinite || PF.le kneeDropDb (.fin 0) then
    .error "knee_drop_db must be > 0"
  else if calibrateToVpp.isSome && !hasCurve then
    .error "calibrate_to_vpp requires calibration_curve"
  else if ¬ (smoothingMode smoothing = "median" ∨ smoothingMode smoothing = "mean" ∨
      smoothingMode smoothing = "none") then
    .error "smoothing must be one of median, mean, or none"
  else .ok ()

/-! The post-sweep cleanup tail of `thd_sweep` (source lines 319 to 342). -/

/-- Outcome of a Python call: a normal return or a raised exception. -/
inductive PyResult (α : Type) where
  | ok : α → PyResult α
  | exc : String → PyResult α
deriving DecidableEq

/-- A `log.warning` record for a failed generator reset, carrying the context
the source formats into the message (frequency, amplitude, port, protocol). -/
structure FYResetWarning where
  postFreqHz : PF
  ampVpp : PF
  fyPort : String
  fyProto : String
  msg : String
deriving DecidableEq

/-- The post-sweep tail of `thd_sweep`, run after the rows are collected and
the optional CSV is written, with the three external cleanup calls modelled by
their outcomes: `scope_resume_run(visa_resource)` is called unguarded, the
`_fy_apply` idle-tone restore is wrapped in `try/except` whose handler calls
`log.warning`, and `scope_configure_timebase` (only when `post_seconds_per_div`
is not `None`) is wrapped in `contextlib.suppress(Exception)` with no logging.
`.ok warnings` means `thd_sweep` reaches its `return rows, out_path,
suppressed` statement, with `warnings` the logged warnings. -/
def thdSweepCleanup (postFreqHz ampVpp : PF) (fyPort fyProto : String)
    (postSecondsPerDiv : Option PF)
    (resumeRun fyRestore timebase : PyResult Unit) :
    PyResult (List FYResetWarning) :=
  match resumeRun with
  | .exc m => .exc m
  | .ok _ =>
    let warnings : List FYResetWarning :=
      match fyRestore with
      | .exc m => [⟨postFreqHz, ampVpp, fyPort, fyProto, m⟩]
      | .ok _ => []
    match postSecondsPerDiv with
    | some _ =>
      match timebase with
      | .exc _ => .ok warnings
      | .ok _ => .ok warnings
    | none => .ok warnings

/-! The post-sweep row loop of `knee_sweep` (source lines 511 to 528). -/

/-- A raw KPI row `(freq, vrms, pkpk, thd_ratio, thd_percent)`. -/
abbrev Row5 := PF × PF × PF × PF × PF

/-- Per-value calibration as applied in the row loops: finite values are
corrected through the curve, non-finite ones pass through unchanged. -/
def applyCalib (calib : Option (PF → PF → PF)) (freq v : PF) : PF :=
  match calib with
  | some f => if v.isfinite then f freq v else v
  | none => v

/-- `ref_db_val`: the reference dB taken from the knee tuple, `nan` when no
knees were found. -/
def kneeRefDb (knees : Option (PF × PF × PF × PF)) : PF :=
  match knees with
  | some k => k.2.2.2
  | none => .nan

/-- The post-sweep row loop of `knee_sweep`: apply calibration to vrms/vpp,
then `rel_db = 20.0 * log10(pk) - ref_db_val` when knees were found, `pk` is
finite and `> 0`, and `ref_db_val` is finite; else `rel_db = -inf`.  `log10`
abstracts `math.log10` on positive finite floats (a float transcendental with
no exact rational embedding). -/
def kneeRelRows (calib : Option (PF → PF → PF)) (log10 : ℚ → ℚ)
    (knees : Option (PF × PF × PF × PF)) (rowsRaw : List Row5) : List Row4 :=
  rowsRaw.map (fun row =>
    let freq := row.1
    let vr := applyCalib calib freq row.2.1
    let pk := applyCalib calib freq row.2.2.1
    let relDb := if knees.isSome && pk.isfinite && PF.gt pk (.fin 0) &&
        (kneeRefDb knees).isfinite
      then PF.fin (20 * log10 pk.toQ - (kneeRefDb knees).toQ)
      else PF.ninf
    (freq, vr, pk, relDb))

/-! Lemmas about the sanitizer. -/

/-- On a list of strictly positive finite samples the sanitizer loop returns
the elementwise absolute value, whatever its `last_finite` state is. -/
lemma cleanAmplitudesGo_pos (x : List PF) : ∀ (lastFinite : ℚ),
    (∀ v ∈ x, ∃ q : ℚ, 0 < q ∧ v = .fin q) →
    cleanAmplitudesGo lastFinite x = x.map PF.abs := by
  induction x with
  | nil => intro lastFinite _; rfl
  | cons a t ih =>
    intro lastFinite h
    obtain ⟨q, hq, rfl⟩ := h a (List.mem_cons_self a t)
    have hc : ((PF.fin q).isfinite && PF.gt (PF.fin q) (.fin 0)) = true := by
      simp [PF.isfinite, PF.gt, PF.lt, hq]
    simp only [cleanAmplitudesGo, hc, if_true, PF.toQ, List.map_cons, PF.abs]
    rw [ih |q| fun v hv => h v (List.mem_cons_of_mem _ hv)]

/-- Elementwise `abs` fixes a list of strictly positive finite samples. -/
lemma map_abs_pos (x : List PF) (h : ∀ v ∈ x, ∃ q : ℚ, 0 < q ∧ v = .fin q) :
    x.map PF.abs = x := by
  induction x with
  | nil => rfl
  | cons a t ih =>
    obtain ⟨q, hq, rfl⟩ := h a (List.mem_cons_self a t)
    simp only [List.map_cons, PF.abs, abs_of_pos hq]
    rw [ih fun v hv => h v (List.mem_cons_of_mem _ hv)]

/-! Lemmas about the envelope passes. -/

lemma envPassGo_length (l : List PF) : ∀ c : PF,
    (envPassGo c l).length = l.length := by
  induction l with
  | nil => intro c; rfl
  | cons a t ih => intro c; simp [envPassGo, ih]

/-- Stepping from a finite `current` yields a finite value that is at least
`current`. -/
lemma envStep_fin (q : ℚ) (val : PF) :
    ∃ r : ℚ, envStep (.fin q) val = .fin r ∧ q ≤ r := by
  cases val with
  | fin p =>
    rcases lt_or_le q p with h | h
    · exact ⟨p, by simp [envStep, PF.isfinite, PF.gt, PF.lt, h], le_of_lt h⟩
    · refine ⟨q, ?_, le_refl q⟩
      simp [envStep, PF.isfinite, PF.gt, PF.lt, not_lt.mpr h]
  | pinf => exact ⟨q, by simp [envStep, PF.isfinite, PF.gt, PF.lt], le_refl q⟩
  | ninf => exact ⟨q, by simp [envStep, PF.isfinite, PF.gt, PF.lt], le_refl q⟩
  | nan => exact ⟨q, by simp [envStep, PF.isfinite, PF.gt, PF.lt], le_refl q⟩

/-- Stepping from `-inf` (the initial state) yields a finite value. -/
lemma envStep_ninf (val : PF) : ∃ r : ℚ, envStep .ninf val = .fin r := by
  cases val with
  | fin p => exact ⟨p, by simp [envStep, PF.isfinite, PF.gt, PF.lt]⟩
  | pinf => exact ⟨0, by simp [envStep, PF.isfinite, PF.gt, PF.lt]⟩
  | ninf => exact ⟨0, by simp [envStep, PF.isfinite, PF.gt, PF.lt]⟩
  | nan => exact ⟨0, by simp [envStep, PF.isfinite, PF.gt, PF.lt]⟩

/-- From a finite state the envelope loop emits a non-decreasing chain of
finite values starting no lower than the state. -/
lemma envPassGo_fin (l : List PF) : ∀ q : ℚ,
    ∃ qs : List ℚ, envPassGo (.fin q) l = qs.map PF.fin ∧
      List.Chain (· ≤ ·) q qs ∧ qs.length = l.length := by
  induction l with
  | nil => intro q; exact ⟨[], rfl, List.Chain.nil, rfl⟩
  | cons a t ih =>
    intro q
    obtain ⟨r, hr, hqr⟩ := envStep_fin q a
    obtain ⟨qs, hqs, hchain, hlen⟩ := ih r
    refine ⟨r :: qs, ?_, List.Chain.cons hqr hchain, by simp [hlen]⟩
    simp [envPassGo, hr, hqs]

/-- The full envelope pass is a list of finite values that is pairwise
non-decreasing. -/
lemma envPass_spec (l : List PF) :
    ∃ qs : List ℚ, envPass l = qs.map PF.fin ∧
      qs.Pairwise (· ≤ ·) ∧ qs.length = l.length := by
  cases l with
  | nil => exact ⟨[], rfl, List.Pairwise.nil, rfl⟩
  | cons a t =>
    obtain ⟨r, hr⟩ := envStep_ninf a
    obtain ⟨qs, hqs, hchain, hlen⟩ := envPassGo_fin t r
    refine ⟨r :: qs, ?_, ?_, by simp [hlen]⟩
    · simp [envPass, envPassGo, hr, hqs]
    · exact List.chain'_iff_pairwise.mp hchain

/-- Monotone `getD` access into a list of finite floats coming from a
pairwise non-decreasing rational list. -/
lemma finMono_of_pairwise (qs : List ℚ) (h : qs.Pairwise (· ≤ ·)) (i j : ℕ)
    (hij : i ≤ j) (hj : j < qs.length) :
    PF.le ((qs.map PF.fin).getD i .nan) ((qs.map PF.fin).getD j .nan) = true := by
  have hi : i < qs.length := Nat.lt_of_le_of_lt hij hj
  have hil : i < (qs.map PF.fin).length := by simpa using hi
  have hjl : j < (qs.map PF.fin).length := by simpa using hj
  rw [List.getD_eq_getElem _ _ hil, List.getD_eq_getElem _ _ hjl]
  simp only [List.getElem_map, PF.le, decide_eq_true_eq]
  rcases Nat.eq_or_lt_of_le hij with rfl | hlt
  · exact le_refl _
  · exact List.pairwise_iff_getElem.mp h i j hi hj hlt

/-- Antitone `getD` access into a list of finite floats coming from a
pairwise non-increasing rational list. -/
lemma finAnti_of_pairwise (qs : List ℚ) (h : qs.Pairwise (fun a b => b ≤ a))
    (i j : ℕ) (hij : i ≤ j) (hj : j < qs.length) :
    PF.le ((qs.map PF.fin).getD j .nan) ((qs.map PF.fin).getD i .nan) = true := by
  have hi : i < qs.length := Nat.lt_of_le_of_lt hij hj
  have hil : i < (qs.map PF.fin).length := by simpa using hi
  have hjl : j < (qs.map PF.fin).length := by simpa using hj
  rw [List.getD_eq_getElem _ _ hil, List.getD_eq_getElem _ _ hjl]
  simp only [List.getElem_map, PF.le, decide_eq_true_eq]
  rcases Nat.eq_or_lt_of_le hij with rfl | hlt
  · exact le_refl _
  · exact List.pairwise_iff_getElem.mp h i j hi hj hlt

lemma envRefIdx_lt (values : List PF) (r : ℤ) (h : values ≠ []) :
    envRefIdx values r < values.length := by
  have h1 : 1 ≤ values.length := List.length_pos.mpr h
  unfold envRefIdx
  omega

lemma envRefIdx_nil (r : ℤ) : envRefIdx ([] : List PF) r = 0 := by
  unfold envRefIdx
  simp only [List.length_nil]
  omega

/-- The envelope of a nonempty list splits into a non-decreasing finite block
of length `idx` followed by a non-increasing finite block covering the rest. -/
lemma monotonicEnvelope_decomp (values : List PF) (r : ℤ) (h : values ≠ []) :
    ∃ los his : List ℚ,
      monotonicEnvelope values r = los.map PF.fin ++ his.map PF.fin ∧
      los.length = envRefIdx values r ∧
      his.length = values.length - envRefIdx values r ∧
      los.Pairwise (· ≤ ·) ∧ his.Pairwise (fun a b => b ≤ a) := by
  have hn : values.length ≠ 0 := by simpa using h
  have hlt := envRefIdx_lt values r h
  obtain ⟨lqs, hl1, hl2, hl3⟩ := envPass_spec (values.take (envRefIdx values r + 1))
  obtain ⟨hqs, hh1, hh2, hh3⟩ :=
    envPass_spec ((values.drop (envRefIdx values r)).reverse)
  refine ⟨lqs.dropLast, hqs.reverse, ?_, ?_, ?_,
    hl2.sublist (List.dropLast_sublist lqs), List.pairwise_reverse.mpr hh2⟩
  · unfold monotonicEnvelope
    rw [if_neg hn]
    simp only [hl1, hh1]
    rw [← List.map_dropLast, ← List.map_reverse]
  · rw [List.length_dropLast, hl3, List.length_take]
    omega
  · rw [List.length_reverse, hh3, List.length_reverse, List.length_drop]

/-! Theorems for the envelope claims. -/

/-- C10: the Monotonic Envelope Builder is total over all integer reference
indices: it always returns a list of the input length, behaves as if the
reference index were clamped to `[0, n - 1]`, and maps the empty input to the
empty list. -/
theorem envelope_total (values : List PF) (r : ℤ) :
    (monotonicEnvelope values r).length = values.length ∧
    monotonicEnvelope values r =
      monotonicEnvelope values (max 0 (min r ((values.length : ℤ) - 1))) ∧
    monotonicEnvelope ([] : List PF) r = [] := by
  refine ⟨?_, ?_, rfl⟩
  · by_cases h : values = []
    · subst h; rfl
    · obtain ⟨los, his, he, hl, hh, _, _⟩ := monotonicEnvelope_decomp values r h
      have hlt := envRefIdx_lt values r h
      rw [he]
      simp only [List.length_append, List.length_map, hl, hh]
      omega
  · have hidx : envRefIdx values r =
        envRefIdx values (max 0 (min r ((values.length : ℤ) - 1))) := by
      unfold envRefIdx
      omega
    unfold monotonicEnvelope
    rw [hidx]

/-- C3 counterexample: at `values = [5.0, 1.0]` and reference index `1` the
envelope is `[5.0, 1.0]`, which is NOT non-decreasing on `[0, ref] = [0, 1]`
(the merge `lo_env[:-1] + hi_env` replaces the running maximum at the
reference position by the right-side running maximum, which here is below the
left-side maximum). -/
theorem envelope_monotone_cex :
    envRefIdx [PF.fin 5, PF.fin 1] 1 = 1 ∧
    monotonicEnvelope [PF.fin 5, PF.fin 1] 1 = [PF.fin 5, PF.fin 1] ∧
    PF.le ((monotonicEnvelope [PF.fin 5, PF.fin 1] 1).getD 0 .nan)
      ((monotonicEnvelope [PF.fin 5, PF.fin 1] 1).getD 1 .nan) = false := by
  decide

/-- C3 (amended): for every amplitude sequence and every reference index, the
envelope is non-decreasing on positions `[0, ref)` (strictly before the
clamped reference index) and non-increasing on `[ref, end]`. -/
theorem envelope_monotone_amended (values : List PF) (r : ℤ) (i j : ℕ)
    (hij : i ≤ j) :
    (j < envRefIdx values r →
      PF.le ((monotonicEnvelope values r).getD i .nan)
        ((monotonicEnvelope values r).getD j .nan) = true) ∧
    (envRefIdx values r ≤ i → j < (monotonicEnvelope values r).length →
      PF.le ((monotonicEnvelope values r).getD j .nan)
        ((monotonicEnvelope values r).getD i .nan) = true) := by
  by_cases h : values = []
  · subst h
    constructor
    · intro hj
      rw [envRefIdx_nil] at hj
      omega
    · intro _ hj
      simp [monotonicEnvelope] at hj
  · obtain ⟨los, his, he, hl, hh, hlp, hhp⟩ := monotonicEnvelope_decomp values r h
    have hlt := envRefIdx_lt values r h
    constructor
    · intro hj
      have hjl : j < (los.map PF.fin).length := by
        simp only [List.length_map, hl]
        exact hj
      have hil : i < (los.map PF.fin).length := Nat.lt_of_le_of_lt hij hjl
      rw [he, List.getD_append _ _ _ _ hil, List.getD_append _ _ _ _ hjl]
      exact finMono_of_pairwise los hlp i j hij (by simpa [hl] using hj)
    · intro hi hjlen
      have hilen : (los.map PF.fin).length ≤ i := by
        simp only [List.length_map, hl]
        exact hi
      have hjlen2 : (los.map PF.fin).length ≤ j := le_trans hilen hij
      rw [he] at hjlen
      simp only [List.length_append, List.length_map] at hjlen
      rw [he, List.getD_append_right _ _ _ _ hjlen2,
        List.getD_append_right _ _ _ _ hilen]
      apply finAnti_of_pairwise his hhp
      · simp only [List.length_map]
        omega
      · simp only [List.length_map] at hjlen2 ⊢
        omega

/-- C3 witness: at `values = [1.0, 3.0, 2.0]`, reference index `1`, the
high side is non-increasing at positions `1 ≤ 2`. -/
theorem envelope_monotone_amended_witness :
    PF.le ((monotonicEnvelope [PF.fin 1, PF.fin 3, PF.fin 2] 1).getD 2 .nan)
      ((monotonicEnvelope [PF.fin 1, PF.fin 3, PF.fin 2] 1).getD 1 .nan) = true :=
  (envelope_monotone_amended [PF.fin 1, PF.fin 3, PF.fin 2] 1 1 2 (by decide)).2
    (by decide) (by decide)

/-! Theorems for the sanitizer claims. -/

/-- C1 counterexample: on `[1.0, nan, -2.0, 0.0]` the sanitizer does NOT
return `[1.0, 1.0, 2.0, 2.0]` — the entry `-2.0` is itself invalid (it is not
`> 0`), so its magnitude never becomes the last-good value. -/
theorem sanitizer_carry_forward_cex :
    cleanAmplitudes [.fin 1, .nan, .fin (-2), .fin 0] ≠
      [.fin 1, .fin 1, .fin 2, .fin 2] := by decide

/-- C1 (amended): `sanitize([1.0, nan, -2.0, 0.0])` replaces every invalid
entry (`nan`, `-2.0` and `0.0` — none of them finite and `> 0`) with the last
valid input magnitude seen so far, returning `[1.0, 1.0, 1.0, 1.0]`. -/
theorem sanitizer_carry_forward_amended :
    cleanAmplitudes [.fin 1, .nan, .fin (-2), .fin 0] =
      [.fin 1, .fin 1, .fin 1, .fin 1] := by decide

/-- C9: for every sequence of strictly positive finite floats, the sanitizer
returns the elementwise absolute value of the input, which equals the input
itself. -/
theorem sanitizer_clean_input (x : List PF)
    (h : ∀ v ∈ x, ∃ q : ℚ, 0 < q ∧ v = .fin q) :
    cleanAmplitudes x = x.map PF.abs ∧ x.map PF.abs = x :=
  ⟨cleanAmplitudesGo_pos x _ h, map_abs_pos x h⟩

/-- C9 witness at the concrete clean input `[2.0, 3.0]`. -/
theorem sanitizer_clean_input_witness :
    cleanAmplitudes [PF.fin 2, PF.fin 3] = [PF.fin 2, PF.fin 3].map PF.abs ∧
      [PF.fin 2, PF.fin 3].map PF.abs = [PF.fin 2, PF.fin 3] :=
  sanitizer_clean_input [PF.fin 2, PF.fin 3] (by
    intro v hv
    rcases List.mem_cons.mp hv with h | hv2
    · exact ⟨2, by norm_num, h⟩
    rcases List.mem_cons.mp hv2 with h | hv3
    · exact ⟨3, by norm_num, h⟩
    · exact absurd hv3 (List.not_mem_nil v))

/-! Lemmas for the Reference Index Selector. -/

lemma PF.isfinite_iff (p : PF) : p.isfinite = true ↔ ∃ q : ℚ, p = .fin q := by
  cases p <;> simp [PF.isfinite]

lemma mem_eligibleIndices (amps : List PF) (i : ℕ) :
    i ∈ eligibleIndices amps ↔
      i < amps.length ∧ eligAmp (amps.getD i .nan) = true := by
  simp [eligibleIndices, List.mem_filter, List.mem_range]

lemma eligibleIndices_sorted (amps : List PF) :
    (eligibleIndices amps).Pairwise (· < ·) :=
  (List.pairwise_lt_range _).sublist (List.filter_sublist _)

lemma eligibleIndices_eq_nil (amps : List PF) (h : ∀ a ∈ amps, eligAmp a = false) :
    eligibleIndices amps = [] := by
  apply List.filter_eq_nil_iff.mpr
  intro i hi
  rw [List.mem_range] at hi
  have hmem : amps.getD i .nan ∈ amps := by
    rw [List.getD_eq_getElem _ _ hi]
    exact List.getElem_mem hi
  simp only [Bool.not_eq_true]
  exact h _ hmem

/-- The Python `max(..., key=...)` scan over a strictly increasing index list
with finite keys returns a member whose key is greatest, strictly greater than
the key of every earlier member. -/
lemma pyMaxKeyGo_spec (key : ℕ → PF) :
    ∀ (L : List ℕ) (res : ℕ),
      (∀ k ∈ res :: L, (key k).isfinite = true) →
      (res :: L).Pairwise (· < ·) →
      pyMaxKeyGo key res L ∈ res :: L ∧
      (∀ k ∈ res :: L, (key k).toQ ≤ (key (pyMaxKeyGo key res L)).toQ) ∧
      (∀ k ∈ res :: L, k < pyMaxKeyGo key res L →
        (key k).toQ < (key (pyMaxKeyGo key res L)).toQ) := by
  intro L
  induction L with
  | nil =>
    intro res _ _
    simp only [pyMaxKeyGo, List.foldl_nil]
    refine ⟨List.mem_cons_self _ _, ?_, ?_⟩
    · intro k hk
      rw [List.mem_singleton] at hk
      rw [hk]
    · intro k hk hklt
      rw [List.mem_singleton] at hk
      rw [hk] at hklt
      exact absurd hklt (lt_irrefl _)
  | cons i L2 ih =>
    intro res hfin hsort
    obtain ⟨a, ha⟩ := (PF.isfinite_iff _).mp (hfin res (List.mem_cons_self _ _))
    obtain ⟨b, hb⟩ := (PF.isfinite_iff _).mp (hfin i (by simp))
    have hstep : pyMaxKeyGo key res (i :: L2) =
        pyMaxKeyGo key (if PF.gt (key i) (key res) then i else res) L2 := by
      simp [pyMaxKeyGo, List.foldl_cons]
    have hgt : PF.gt (key i) (key res) = decide (a < b) := by
      rw [ha, hb]; rfl
    by_cases hab : a < b
    · have hsel : (if PF.gt (key i) (key res) then i else res) = i := by
        rw [hgt]; simp [hab]
      rw [hsel] at hstep
      have hfin2 : ∀ k ∈ i :: L2, (key k).isfinite = true := fun k hk =>
        hfin k (List.mem_cons_of_mem _ hk)
      obtain ⟨hmem, hle, hstrict⟩ := ih i hfin2 hsort.of_cons
      rw [hstep]
      refine ⟨List.mem_cons_of_mem _ hmem, ?_, ?_⟩
      · intro k hk
        rcases List.mem_cons.mp hk with hk1 | hk2
        · rw [hk1, ha]
          calc (PF.fin a).toQ = a := rfl
            _ ≤ b := le_of_lt hab
            _ = (key i).toQ := by simp [hb, PF.toQ]
            _ ≤ _ := hle i (List.mem_cons_self _ _)
        · exact hle k hk2
      · intro k hk hklt
        rcases List.mem_cons.mp hk with hk1 | hk2
        · rw [hk1, ha]
          calc (PF.fin a).toQ = a := rfl
            _ < b := hab
            _ = (key i).toQ := by simp [hb, PF.toQ]
            _ ≤ _ := hle i (List.mem_cons_self _ _)
        · exact hstrict k hk2 hklt
    · have hsel : (if PF.gt (key i) (key res) then i else res) = res := by
        rw [hgt]; simp [hab]
      rw [hsel] at hstep
      have hsub : (res :: L2).Sublist (res :: i :: L2) :=
        List.Sublist.cons₂ res (List.sublist_cons_self i L2)
      have hfin2 : ∀ k ∈ res :: L2, (key k).isfinite = true := fun k hk =>
        hfin k (hsub.subset hk)
      obtain ⟨hmem, hle, hstrict⟩ := ih res hfin2 (hsort.sublist hsub)
      have hresall : ∀ m ∈ i :: L2, res < m := (List.pairwise_cons.mp hsort).1
      rw [hstep]
      refine ⟨?_, ?_, ?_⟩
      · rcases List.mem_cons.mp hmem with h1 | h2
        · rw [h1]; exact List.mem_cons_self _ _
        · exact List.mem_cons_of_mem _ (List.mem_cons_of_mem _ h2)
      · intro k hk
        rcases List.mem_cons.mp hk with hk1 | hk2
        · rw [hk1]; exact hle res (List.mem_cons_self _ _)
        rcases List.mem_cons.mp hk2 with hk3 | hk4
        · rw [hk3, hb]
          calc (PF.fin b).toQ = b := rfl
            _ ≤ a := not_lt.mp hab
            _ = (key res).toQ := by simp [ha, PF.toQ]
            _ ≤ _ := hle res (List.mem_cons_self _ _)
        · exact hle k (List.mem_cons_of_mem _ hk4)
      · intro k hk hklt
        rcases List.mem_cons.mp hk with hk1 | hk2
        · rw [hk1] at hklt ⊢
          exact hstrict res (List.mem_cons_self _ _) hklt
        rcases List.mem_cons.mp hk2 with hk3 | hk4
        · have houtne : pyMaxKeyGo key res L2 ≠ res := by
            intro he
            rw [hk3, he] at hklt
            exact absurd (hresall i (List.mem_cons_self _ _))
              (not_lt.mpr (le_of_lt hklt))
          have houtL2 : pyMaxKeyGo key res L2 ∈ L2 := by
            rcases List.mem_cons.mp hmem with h1 | h2
            · exact absurd h1 houtne
            · exact h2
          have hresout : res < pyMaxKeyGo key res L2 :=
            hresall _ (List.mem_cons_of_mem _ houtL2)
          have h1 := hstrict res (List.mem_cons_self _ _) hresout
          rw [hk3, hb]
          calc (PF.fin b).toQ = b := rfl
            _ ≤ a := not_lt.mp hab
            _ = (key res).toQ := by simp [ha, PF.toQ]
            _ < _ := h1
        · exact hstrict k (List.mem_cons_of_mem _ hk4) hklt

lemma PF.gt_eq_decide_of_fin (a b : PF) (ha : a.isfinite = true)
    (hb : b.isfinite = true) : PF.gt a b = decide (b.toQ < a.toQ) := by
  obtain ⟨p, rfl⟩ := (PF.isfinite_iff a).mp ha
  obtain ⟨q, rfl⟩ := (PF.isfinite_iff b).mp hb
  simp [PF.gt, PF.lt, PF.toQ]

/-- The amplitude at an eligible index is finite. -/
lemma eligible_key_finite (amps : List PF) (k : ℕ) (hk : k ∈ eligibleIndices amps) :
    (amps.getD k .nan).isfinite = true := by
  rw [mem_eligibleIndices] at hk
  have h2 := hk.2
  unfold eligAmp at h2
  rw [Bool.and_eq_true] at h2
  exact h2.1

/-- C6: the Reference Index Selector treats exactly the positions with finite
amplitude `> 0` as eligible; with no eligible index it returns `0` in every
mode; in `"max"` mode it returns an eligible index whose amplitude no eligible
index exceeds and which every earlier eligible index is strictly below (the
first max); and on `([100,200,300], [1.0,2.0,2.0], "max", 0)` it returns `1`. -/
theorem reference_index_spec :
    (∀ (amps : List PF) (i : ℕ),
      i ∈ eligibleIndices amps ↔
        i < amps.length ∧ (amps.getD i .nan).isfinite = true ∧
        PF.gt (amps.getD i .nan) (.fin 0) = true) ∧
    (∀ (freqs amps : List PF) (mode : String) (refHz : PF),
      (∀ a ∈ amps, eligAmp a = false) → referenceIndex freqs amps mode refHz = 0) ∧
    (∀ (freqs amps : List PF) (refHz : PF),
      freqs.length ≠ 0 → eligibleIndices amps ≠ [] →
      referenceIndex freqs amps "max" refHz ∈ eligibleIndices amps ∧
      (∀ j ∈ eligibleIndices amps,
        PF.gt (amps.getD j .nan)
          (amps.getD (referenceIndex freqs amps "max" refHz) .nan) = false) ∧
      (∀ j ∈ eligibleIndices amps, j < referenceIndex freqs amps "max" refHz →
        (amps.getD j .nan).toQ <
          (amps.getD (referenceIndex freqs amps "max" refHz) .nan).toQ)) ∧
    referenceIndex [.fin 100, .fin 200, .fin 300] [.fin 1, .fin 2, .fin 2] "max"
      (.fin 0) = 1 := by
  refine ⟨?_, ?_, ?_, ?_⟩
  · intro amps i
    rw [mem_eligibleIndices]
    unfold eligAmp
    rw [Bool.and_eq_true]
  · intro freqs amps mode refHz h
    have hnil := eligibleIndices_eq_nil amps h
    simp [referenceIndex, hnil]
  · intro freqs amps refHz hf hne
    cases he : eligibleIndices amps with
    | nil => exact absurd he hne
    | cons x xs =>
      have hempty : (eligibleIndices amps).isEmpty = false := by
        rw [he]; rfl
      have hmode : pyStartsWith (pyLower "max") "freq" = false := by decide
      have hrw : referenceIndex freqs amps "max" refHz =
          pyMaxKeyGo (fun i => amps.getD i .nan) x xs := by
        simp [referenceIndex, hf, he, hmode, pyMaxKey]
      have hfin : ∀ k ∈ x :: xs, ((fun i => amps.getD i .nan) k).isfinite = true := by
        intro k hk
        exact eligible_key_finite amps k (he ▸ hk)
      have hsort : (x :: xs).Pairwise (· < ·) := he ▸ eligibleIndices_sorted amps
      obtain ⟨hmem, hle, hstrict⟩ :=
        pyMaxKeyGo_spec (fun i => amps.getD i .nan) xs x hfin hsort
      rw [hrw]
      refine ⟨hmem, ?_, ?_⟩
      · intro j hj
        rw [PF.gt_eq_decide_of_fin _ _ (eligible_key_finite amps j (he ▸ hj))
          (eligible_key_finite amps _ (he ▸ hmem))]
        exact decide_eq_false (not_lt.mpr (hle j hj))
      · intro j hj hjlt
        exact hstrict j hj hjlt
  · decide

/-- C6 witness: with no eligible amplitude (a lone `nan`) the selector
returns index `0`. -/
theorem reference_index_spec_witness :
    referenceIndex [PF.fin 5] [PF.nan] "max" (PF.fin 0) = 0 :=
  reference_index_spec.2.1 [PF.fin 5] [PF.nan] "max" (PF.fin 0) (by
    intro a ha
    rw [List.mem_singleton] at ha
    rw [ha]
    rfl)

/-! Lemmas for the Spike Filter. -/

lemma PF.gt_irrefl (x : PF) : PF.gt x x = false := by
  cases x <;> simp [PF.gt, PF.lt]

/-- The loop body appends exactly the closed-form row and the closed-form
optional suppression record. -/
lemma spikeStep_eq (rows : List Row4) (window : ℤ) (factor minPercent : PF)
    (acc : List Row4 × List Supp) (idx : ℕ) :
    spikeStep rows window factor minPercent acc idx =
      (acc.1 ++ [spikeRowAt rows window factor minPercent idx],
        acc.2 ++ (spikeSuppAt rows window factor minPercent idx).toList) := by
  simp only [spikeStep, spikeRowAt, spikeSuppAt]
  split_ifs <;> simp

/-- Closed form of the `_filter_spikes` fold over any index list. -/
lemma spikeFold_eq (rows : List Row4) (window : ℤ) (factor minPercent : PF) :
    ∀ (L : List ℕ) (acc : List Row4 × List Supp),
      L.foldl (spikeStep rows window factor minPercent) acc =
        (acc.1 ++ L.map (spikeRowAt rows window factor minPercent),
          acc.2 ++ L.filterMap (spikeSuppAt rows window factor minPercent)) := by
  intro L
  induction L with
  | nil => intro acc; simp
  | cons a L2 ih =>
    intro acc
    rw [List.foldl_cons, spikeStep_eq, ih]
    cases hs : spikeSuppAt rows window factor minPercent a <;>
      simp [List.filterMap_cons, hs]

/-- `_filter_spikes` in closed form: the rows are a map over the positions and
the suppressions a filterMap over the positions, in sweep order. -/
lemma filterSpikes_eq (rows : List Row4) (window : ℤ) (factor minPercent : PF) :
    filterSpikes rows window factor minPercent =
      ((List.range rows.length).map (spikeRowAt rows window factor minPercent),
        (List.range rows.length).filterMap
          (spikeSuppAt rows window factor minPercent)) := by
  unfold filterSpikes
  rw [spikeFold_eq]
  simp

/-- The output row at a position keeps the input freq, vrms and vpp fields. -/
lemma spikeRowAt_frame (rows : List Row4) (window : ℤ) (factor minPercent : PF)
    (idx : ℕ) :
    (spikeRowAt rows window factor minPercent idx).1 =
        (rows.getD idx rowDefault).1 ∧
      (spikeRowAt rows window factor minPercent idx).2.1 =
        (rows.getD idx rowDefault).2.1 ∧
      (spikeRowAt rows window factor minPercent idx).2.2.1 =
        (rows.getD idx rowDefault).2.2.1 := by
  simp only [spikeRowAt]
  split_ifs <;> simp

/-- `getD` through the mapped range hits the closed-form row. -/
lemma filterSpikes_getD (rows : List Row4) (window : ℤ) (factor minPercent : PF)
    (idx : ℕ) (hidx : idx < rows.length) :
    (filterSpikes rows window factor minPercent).1.getD idx rowDefault =
      spikeRowAt rows window factor minPercent idx := by
  rw [filterSpikes_eq]
  have hlen : idx < ((List.range rows.length).map
      (spikeRowAt rows window factor minPercent)).length := by
    simpa using hidx
  rw [List.getD_eq_getElem _ _ hlen]
  simp [List.getElem_map, List.getElem_range]

/-! Theorems for the Spike Filter claims. -/

/-- C7: the Spike Filter returns as many rows as it was given and never
changes the freq, vrms or vpp field of any row (only `thd_percent` can
differ). -/
theorem spike_filter_frame (rows : List Row4) (window : ℤ)
    (factor minPercent : PF) :
    (filterSpikes rows window factor minPercent).1.length = rows.length ∧
    ∀ i : ℕ, i < rows.length →
      ((filterSpikes rows window factor minPercent).1.getD i rowDefault).1 =
          (rows.getD i rowDefault).1 ∧
      ((filterSpikes rows window factor minPercent).1.getD i rowDefault).2.1 =
          (rows.getD i rowDefault).2.1 ∧
      ((filterSpikes rows window factor minPercent).1.getD i rowDefault).2.2.1 =
          (rows.getD i rowDefault).2.2.1 := by
  constructor
  · rw [filterSpikes_eq]
    simp
  · intro i hi
    rw [filterSpikes_getD rows window factor minPercent i hi]
    exact spikeRowAt_frame rows window factor minPercent i

/-- C7 witness on a concrete two-row input. -/
theorem spike_filter_frame_witness :
    ((filterSpikes [(PF.fin 1, PF.fin 2, PF.fin 3, PF.fin 10),
        (PF.fin 4, PF.fin 5, PF.fin 6, PF.fin 1)] 2 (.fin 2) (.fin 2)).1.getD 0
        rowDefault).1 =
      (([(PF.fin 1, PF.fin 2, PF.fin 3, PF.fin 10),
        (PF.fin 4, PF.fin 5, PF.fin 6, PF.fin 1)] : List Row4).getD 0 rowDefault).1 :=
  ((spike_filter_frame [(PF.fin 1, PF.fin 2, PF.fin 3, PF.fin 10),
    (PF.fin 4, PF.fin 5, PF.fin 6, PF.fin 1)] 2 (.fin 2) (.fin 2)).2 0
    (by decide)).1

/-- C4: for a row with finite THD and at least one finite-THD neighbor in the
window, the Spike Filter replaces the THD by the neighbor median `baseline`
exactly when it strictly exceeds `max(min_percent, baseline * factor)`; a THD
equal to `baseline * factor` is never replaced; the suppression record at the
position is `(freq, original_thd, baseline)` exactly when the row is replaced;
and the suppression list is the in-order collection of those records. -/
theorem spike_filter_threshold (rows : List Row4) (window : ℤ)
    (factor minPercent : PF) (idx : ℕ) (hidx : idx < rows.length)
    (hfin : (rowThd (rows.getD idx rowDefault)).isfinite = true)
    (hnb : neighborThds rows idx window ≠ []) :
    rowThd ((filterSpikes rows window factor minPercent).1.getD idx rowDefault) =
      (if PF.gt (rowThd (rows.getD idx rowDefault))
          (pyMax minPercent
            (PF.mul (.fin (medianQ (neighborThds rows idx window))) factor)) = true
        then PF.fin (medianQ (neighborThds rows idx window))
        else rowThd (rows.getD idx rowDefault)) ∧
    (rowThd (rows.getD idx rowDefault) =
        PF.mul (.fin (medianQ (neighborThds rows idx window))) factor →
      rowThd ((filterSpikes rows window factor minPercent).1.getD idx rowDefault) =
        rowThd (rows.getD idx rowDefault)) ∧
    spikeSuppAt rows window factor minPercent idx =
      (if PF.gt (rowThd (rows.getD idx rowDefault))
          (pyMax minPercent
            (PF.mul (.fin (medianQ (neighborThds rows idx window))) factor)) = true
        then some ((rows.getD idx rowDefault).1, rowThd (rows.getD idx rowDefault),
          PF.fin (medianQ (neighborThds rows idx window)))
        else none) ∧
    (filterSpikes rows window factor minPercent).2 =
      (List.range rows.length).filterMap
        (spikeSuppAt rows window factor minPercent) := by
  have h1 : (neighborThds rows idx window).isEmpty = false := by
    cases hn : neighborThds rows idx window with
    | nil => exact absurd hn hnb
    | cons a l => rfl
  have hrow : rowThd ((filterSpikes rows window factor minPercent).1.getD idx
      rowDefault) =
      (if PF.gt (rowThd (rows.getD idx rowDefault))
          (pyMax minPercent
            (PF.mul (.fin (medianQ (neighborThds rows idx window))) factor)) = true
        then PF.fin (medianQ (neighborThds rows idx window))
        else rowThd (rows.getD idx rowDefault)) := by
    rw [filterSpikes_getD rows window factor minPercent idx hidx]
    simp only [spikeRowAt, h1, hfin, Bool.not_true, Bool.or_false, Bool.false_eq_true,
      if_false]
    split_ifs <;> simp [rowThd]
  refine ⟨hrow, ?_, ?_, ?_⟩
  · intro heq
    rw [hrow, ← heq]
    unfold pyMax
    split_ifs with hg1 hg2 <;> simp_all [PF.gt_irrefl]
  · simp only [spikeSuppAt, h1, hfin, Bool.not_true, Bool.or_false, Bool.false_eq_true,
      if_false]
  · rw [filterSpikes_eq]

/-- C4 witness at a concrete three-row sweep with a spike in its first row. -/
theorem spike_filter_threshold_witness :
    (filterSpikes [(PF.fin 1, PF.fin 1, PF.fin 1, PF.fin 10),
        (PF.fin 2, PF.fin 1, PF.fin 1, PF.fin 1),
        (PF.fin 3, PF.fin 1, PF.fin 1, PF.fin 1)] 2 (.fin 2) (.fin 2)).2 =
      (List.range ([(PF.fin 1, PF.fin 1, PF.fin 1, PF.fin 10),
        (PF.fin 2, PF.fin 1, PF.fin 1, PF.fin 1),
        (PF.fin 3, PF.fin 1, PF.fin 1, PF.fin 1)] : List Row4).length).filterMap
        (spikeSuppAt [(PF.fin 1, PF.fin 1, PF.fin 1, PF.fin 10),
          (PF.fin 2, PF.fin 1, PF.fin 1, PF.fin 1),
          (PF.fin 3, PF.fin 1, PF.fin 1, PF.fin 1)] 2 (.fin 2) (.fin 2)) :=
  (spike_filter_threshold [(PF.fin 1, PF.fin 1, PF.fin 1, PF.fin 10),
    (PF.fin 2, PF.fin 1, PF.fin 1, PF.fin 1),
    (PF.fin 3, PF.fin 1, PF.fin 1, PF.fin 1)] 2 (.fin 2) (.fin 2) 0
    (by decide) (by decide) (by decide)).2.2.2

/-! Theorems for the validation claim. -/

lemma bool_not_or_true (b c : Bool) : (!b || c) = true ↔ b = false ∨ c = true := by
  cases b <;> cases c <;> simp

/-- C5: `thd_sweep` validation fails (raises `ValueError`) exactly when
`points < 2`, `amp_vpp` is non-finite or `<= 0`, `dwell_s` is non-finite or
negative, or `calibrate_to_vpp` is given without a curve; `knee_sweep`
validation fails exactly under the same conditions or when `knee_drop_db` is
non-finite or `<= 0` or the normalized smoothing mode is not one of
`median`, `mean`, `none`.  All checks sit before the `sweep_audio_kpis` call,
the only instrument I/O. -/
theorem sweep_validation (points : ℤ) (ampVpp dwellS kneeDropDb : PF)
    (calibrateToVpp : Option PF) (hasCurve : Bool) (smoothing : String) :
    (thdSweepValidate points ampVpp dwellS calibrateToVpp hasCurve = .ok () ↔
      ¬(points < 2 ∨ ampVpp.isfinite = false ∨ PF.le ampVpp (.fin 0) = true ∨
        dwellS.isfinite = false ∨ PF.lt dwellS (.fin 0) = true ∨
        (calibrateToVpp.isSome = true ∧ hasCurve = false))) ∧
    (kneeSweepValidate points ampVpp dwellS kneeDropDb calibrateToVpp hasCurve
        smoothing = .ok () ↔
      ¬(points < 2 ∨ ampVpp.isfinite = false ∨ PF.le ampVpp (.fin 0) = true ∨
        dwellS.isfinite = false ∨ PF.lt dwellS (.fin 0) = true ∨
        kneeDropDb.isfinite = false ∨ PF.le kneeDropDb (.fin 0) = true ∨
        (calibrateToVpp.isSome = true ∧ hasCurve = false) ∨
        ¬(smoothingMode smoothing = "median" ∨ smoothingMode smoothing = "mean" ∨
          smoothingMode smoothing = "none"))) := by
  constructor
  · unfold thdSweepValidate
    split_ifs with h1 h2 h3 h4
    · exact iff_of_false (by simp) (not_not_intro (Or.inl h1))
    · refine iff_of_false (by simp) (not_not_intro ?_)
      rcases (bool_not_or_true _ _).mp h2 with hb | hc
      · exact Or.inr (Or.inl hb)
      · exact Or.inr (Or.inr (Or.inl hc))
    · refine iff_of_false (by simp) (not_not_intro ?_)
      rcases (bool_not_or_true _ _).mp h3 with hb | hc
      · exact Or.inr (Or.inr (Or.inr (Or.inl hb)))
      · exact Or.inr (Or.inr (Or.inr (Or.inr (Or.inl hc))))
    · refine iff_of_false (by simp) (not_not_intro ?_)
      rw [Bool.and_eq_true, Bool.not_eq_true'] at h4
      exact Or.inr (Or.inr (Or.inr (Or.inr (Or.inr h4))))
    · refine iff_of_true rfl ?_
      rintro (hA | hA | hA | hA | hA | ⟨hA, hB⟩)
      · exact h1 hA
      · exact h2 ((bool_not_or_true _ _).mpr (Or.inl hA))
      · exact h2 ((bool_not_or_true _ _).mpr (Or.inr hA))
      · exact h3 ((bool_not_or_true _ _).mpr (Or.inl hA))
      · exact h3 ((bool_not_or_true _ _).mpr (Or.inr hA))
      · exact h4 (by rw [Bool.and_eq_true, Bool.not_eq_true']; exact ⟨hA, hB⟩)
  · unfold kneeSweepValidate
    split_ifs with h1 h2 h3 h4 h5 h6
    · exact iff_of_false (by simp) (not_not_intro (Or.inl h1))
    · refine iff_of_false (by simp) (not_not_intro ?_)
      rcases (bool_not_or_true _ _).mp h2 with hb | hc
      · exact Or.inr (Or.inl hb)
      · exact Or.inr (Or.inr (Or.inl hc))
    · refine iff_of_false (by simp) (not_not_intro ?_)
      rcases (bool_not_or_true _ _).mp h3 with hb | hc
      · exact Or.inr (Or.inr (Or.inr (Or.inl hb)))
      · exact Or.inr (Or.inr (Or.inr (Or.inr (Or.inl hc))))
    · refine iff_of_false (by simp) (not_not_intro ?_)
      rcases (bool_not_or_true _ _).mp h4 with hb | hc
      · exact Or.inr (Or.inr (Or.inr (Or.inr (Or.inr (Or.inl hb)))))
      · exact Or.inr (Or.inr (Or.inr (Or.inr (Or.inr (Or.inr (Or.inl hc))))))
    · refine iff_of_false (by simp) (not_not_intro ?_)
      rw [Bool.and_eq_true, Bool.not_eq_true'] at h5
      exact Or.inr (Or.inr (Or.inr (Or.inr (Or.inr (Or.inr (Or.inr (Or.inl h5)))))))
    · refine iff_of_true rfl ?_
      rintro (hA | hA | hA | hA | hA | hA | hA | ⟨hA, hB⟩ | hA)
      · exact h1 hA
      · exact h2 ((bool_not_or_true _ _).mpr (Or.inl hA))
      · exact h2 ((bool_not_or_true _ _).mpr (Or.inr hA))
      · exact h3 ((bool_not_or_true _ _).mpr (Or.inl hA))
      · exact h3 ((bool_not_or_true _ _).mpr (Or.inr hA))
      · exact h4 ((bool_not_or_true _ _).mpr (Or.inl hA))
      · exact h4 ((bool_not_or_true _ _).mpr (Or.inr hA))
      · exact h5 (by rw [Bool.and_eq_true, Bool.not_eq_true']; exact ⟨hA, hB⟩)
      · exact hA h6
    · exact iff_of_false (by simp) (not_not_intro
        (Or.inr (Or.inr (Or.inr (Or.inr (Or.inr (Or.inr (Or.inr (Or.inr h6)))))))))

/-! Theorems for the cleanup claim. -/

/-- C2 counterexample: a failing `scope_resume_run` is NOT caught — the
post-sweep cleanup propagates the exception instead of returning the rows
(`scope_resume_run(visa_resource)` on line 319 of `sweeps.py` sits outside
every `try`/`suppress` block). -/
theorem thd_cleanup_cex :
    thdSweepCleanup (.fin 1000) (.fin (1 / 2)) "COM1" "FY ASCII 9600"
        (some (.fin (1 / 10000))) (.exc "resume failed") (.ok ()) (.ok ()) =
      .exc "resume failed" ∧
    ¬ ∃ w, thdSweepCleanup (.fin 1000) (.fin (1 / 2)) "COM1" "FY ASCII 9600"
        (some (.fin (1 / 10000))) (.exc "resume failed") (.ok ()) (.ok ()) =
      .ok w := by
  constructor
  · rfl
  · rintro ⟨w, hw⟩
    simp [thdSweepCleanup] at hw

/-- C2 (amended): once `scope_resume_run` succeeds, every exception from the
generator idle-tone restore is caught and logged as a warning carrying the
frequency/amplitude/port/protocol context, every exception from the timebase
restore is suppressed silently, and the cleanup returns normally. -/
theorem thd_cleanup_amended (postFreqHz ampVpp : PF) (fyPort fyProto : String)
    (postSecondsPerDiv : Option PF) (fyRestore timebase : PyResult Unit) :
    thdSweepCleanup postFreqHz ampVpp fyPort fyProto postSecondsPerDiv
        (.ok ()) fyRestore timebase =
      .ok (match fyRestore with
        | .exc m => [⟨postFreqHz, ampVpp, fyPort, fyProto, m⟩]
        | .ok _ => []) := by
  cases fyRestore <;> cases timebase <;> cases postSecondsPerDiv <;> rfl

/-! Theorems for the knee relative-dB claim. -/

/-- C8: in the `knee_sweep` row post-processing, the `rel_db` column equals
`20 * log10(pk) - ref_db` exactly for rows whose calibration-corrected `pkpk`
is finite and `> 0` when knees were found with a finite `ref_db`, and `-inf`
for every other row (in particular every row when no knees were found). -/
theorem knee_rel_rows_spec (calib : Option (PF → PF → PF)) (log10 : ℚ → ℚ)
    (knees : Option (PF × PF × PF × PF)) (rowsRaw : List Row5) (idx : ℕ)
    (hidx : idx < rowsRaw.length) :
    ((kneeRelRows calib log10 knees rowsRaw).getD idx
        (.nan, .nan, .nan, .nan)).2.2.2 =
      (if (knees.isSome &&
          (applyCalib calib (rowsRaw.getD idx (.nan, .nan, .nan, .nan, .nan)).1
            (rowsRaw.getD idx (.nan, .nan, .nan, .nan, .nan)).2.2.1).isfinite &&
          PF.gt (applyCalib calib (rowsRaw.getD idx (.nan, .nan, .nan, .nan, .nan)).1
            (rowsRaw.getD idx (.nan, .nan, .nan, .nan, .nan)).2.2.1) (.fin 0) &&
          (kneeRefDb knees).isfinite) = true
        then PF.fin (20 * log10 (applyCalib calib
            (rowsRaw.getD idx (.nan, .nan, .nan, .nan, .nan)).1
            (rowsRaw.getD idx (.nan, .nan, .nan, .nan, .nan)).2.2.1).toQ -
          (kneeRefDb knees).toQ)
        else PF.ninf) := by
  have hlen : idx < (kneeRelRows calib log10 knees rowsRaw).length := by
    simpa [kneeRelRows] using hidx
  rw [List.getD_eq_getElem _ _ hlen, List.getD_eq_getElem _ _ hidx]
  simp only [kneeRelRows, List.getElem_map]

/-- C8 witness: one concrete row with knees present. -/
theorem knee_rel_rows_spec_witness :
    ((kneeRelRows none (fun q => q) (some (.fin 1, .fin 2, .fin 3, .fin 4))
        [(.fin 10, .fin 1, .fin 100, .nan, .nan)]).getD 0
        (.nan, .nan, .nan, .nan)).2.2.2 =
      (if ((some (.fin 1, .fin 2, .fin 3, .fin 4) : Option (PF × PF × PF × PF)).isSome &&
          (applyCalib none (([(.fin 10, .fin 1, .fin 100, .nan, .nan)] : List Row5).getD 0
            (.nan, .nan, .nan, .nan, .nan)).1
            (([(.fin 10, .fin 1, .fin 100, .nan, .nan)] : List Row5).getD 0
            (.nan, .nan, .nan, .nan, .nan)).2.2.1).isfinite &&
          PF.gt (applyCalib none (([(.fin 10, .fin 1, .fin 100, .nan, .nan)] : List Row5).getD 0
            (.nan, .nan, .nan, .nan, .nan)).1
            (([(.fin 10, .fin 1, .fin 100, .nan, .nan)] : List Row5).getD 0
            (.nan, .nan, .nan, .nan, .nan)).2.2.1) (.fin 0) &&
          (kneeRefDb (some (.fin 1, .fin 2, .fin 3, .fin 4))).isfinite) = true
        then PF.fin (20 * (fun q : ℚ => q) (applyCalib none
            (([(.fin 10, .fin 1, .fin 100, .nan, .nan)] : List Row5).getD 0
            (.nan, .nan, .nan, .nan, .nan)).1
            (([(.fin 10, .fin 1, .fin 100, .nan, .nan)] : List Row5).getD 0
            (.nan, .nan, .nan, .nan, .nan)).2.2.1).toQ -
          (kneeRefDb (some (.fin 1, .fin 2, .fin 3, .fin 4))).toQ)
        else PF.ninf) :=
  knee_rel_rows_spec none (fun q => q) (some (.fin 1, .fin 2, .fin 3, .fin 4))
    [(.fin 10, .fin 1, .fin 100, .nan, .nan)] 0 (by decide)
